import Mathlib

/-!
Shallow embedding of `pysctransform/fit.py`: the count lookup table, the
negative-binomial score and Hessian in their fast (lookup-table) and exact
(elementwise) modes, the Newton-Raphson dispersion estimator `theta_ml`,
and the mean-model wrapper `estimate_mu_glm`.

Modelling conventions:
* Real arithmetic is carried out exactly over `ℚ`.
* The external special functions digamma and trigamma and the natural
  logarithm are external numerical primitives (scipy); they enter as
  explicit function parameters `dg`, `tg`, `lg : ℚ → ℚ`.
* Numpy values are modelled by `NpVal`, which is either a scalar or a
  one-dimensional array, with numpy's broadcasting rules for the
  arithmetic operators.
* `np.inf`, returned by `theta_ml` as the "unbounded dispersion"
  sentinel, is modelled by `none : Option ℚ`; a finite result `t` is
  `some t`.
-/

attribute [local semireducible] Rat.add Rat.sub Rat.mul Rat.inv

set_option maxRecDepth 8000

namespace PySCTransform

/-- A numpy value: either a scalar or a one-dimensional array of rationals. -/
inductive NpVal where
  | scalar (x : ℚ)
  | vec (xs : List ℚ)
deriving DecidableEq

namespace NpVal

/-- Numpy broadcasting for a binary arithmetic operator: scalar-scalar,
scalar-array, array-scalar and elementwise array-array application. -/
def bin (f : ℚ → ℚ → ℚ) : NpVal → NpVal → NpVal
  | scalar a, scalar b => scalar (f a b)
  | scalar a, vec bs => vec (bs.map fun b => f a b)
  | vec as, scalar b => vec (as.map fun a => f a b)
  | vec as, vec bs => vec (List.zipWith f as bs)

instance : Add NpVal := ⟨bin (· + ·)⟩
instance : Sub NpVal := ⟨bin (· - ·)⟩
instance : Mul NpVal := ⟨bin (· * ·)⟩
instance : Div NpVal := ⟨bin (· / ·)⟩

/-- Elementwise application of a unary function (numpy ufunc such as
`np.log`, `digamma`, `trigamma`, or squaring). -/
def map (f : ℚ → ℚ) : NpVal → NpVal
  | scalar a => scalar (f a)
  | vec as => vec (as.map f)

/-- Summing a numpy value (`ndarray.sum()` or the Python builtin `sum`
over an array); the sum of a scalar is the scalar itself. -/
def sum : NpVal → ℚ
  | scalar a => a
  | vec as => as.sum

/-- Reading a numpy value as a Python scalar, as done implicitly by the
comparisons in `theta_ml` (`score_diff < 0`, `np.abs(delta_theta) <= tol`).
In the pipeline these values are scalars; a genuine array of size larger
than one would make the Python `if` raise, so the `vec` case is never
exercised by the claims. -/
def asScalar : NpVal → ℚ
  | scalar a => a
  | vec _ => 0

theorem bin_scalar_scalar (f : ℚ → ℚ → ℚ) (a b : ℚ) :
    bin f (scalar a) (scalar b) = scalar (f a b) := rfl

theorem bin_scalar_vec (f : ℚ → ℚ → ℚ) (a : ℚ) (bs : List ℚ) :
    bin f (scalar a) (vec bs) = vec (bs.map fun b => f a b) := rfl

theorem bin_vec_scalar (f : ℚ → ℚ → ℚ) (as : List ℚ) (b : ℚ) :
    bin f (vec as) (scalar b) = vec (as.map fun a => f a b) := rfl

theorem bin_vec_vec (f : ℚ → ℚ → ℚ) (as bs : List ℚ) :
    bin f (vec as) (vec bs) = vec (List.zipWith f as bs) := rfl

end NpVal

/-- Conversion of a Python/numpy number to an integer
(`np.asarray(y, dtype=int)`): truncation toward zero. -/
def pyInt (q : ℚ) : ℤ := Int.tdiv q.num (q.den : ℤ)

/-- The helper `_process_y`: coerce the input to an integer array and
squeeze it.  Squeezing is the identity on a one-dimensional array of
length at least two; on a length-one array `np.squeeze` produces a 0-d
array, on which the callers' subsequent `len(y)` raises, so concrete
runs exercised below use counts of length at least two. -/
def _process_y (y : List ℚ) : List ℤ := y.map pyInt

/-- The counts array `np.bincount(y)`: entry `v` is the number of
occurrences of `v` in `y`, for `v` up to the maximum of `y`; the empty
input yields the empty counts array.  `np.bincount` rejects negative
input, so counts are naturals. -/
def bincount (y : List ℕ) : List ℕ :=
  match y with
  | [] => []
  | _ :: _ => (List.range (y.foldr Nat.max 0 + 1)).map fun v => y.count v

/-- The lookup table of `fit.py`: bincount the (squeezed) counts, keep the
indices with a non-zero bin, and pair each such distinct value with its
multiplicity. -/
def lookup_table (y : List ℕ) : List (ℕ × ℕ) :=
  let y_bc := bincount y
  ((List.range y_bc.length).filter fun i => y_bc.getD i 0 != 0).map
    fun i => (i, y_bc.getD i 0)

/-- First derivative (score) of the NB log-likelihood with respect to
theta, mirroring `theta_nb_score` in `fit.py` line by line.  `dg` is the
digamma primitive and `lg` the natural logarithm. -/
def theta_nb_score (dg lg : ℚ → ℚ) (y : List ℕ) (mu : NpVal) (theta : ℚ)
    (fast : Bool) : NpVal :=
  let N : ℚ := (y.length : ℚ)
  let yv : NpVal := NpVal.vec (y.map fun a : ℕ => (a : ℚ))
  if fast then
    let y_lookup := lookup_table y
    let digamma_sum : ℚ :=
      (y_lookup.map fun p => dg ((p.1 : ℚ) + theta) * (p.2 : ℚ)).sum
    let digamma_theta : ℚ := dg theta * N
    let mu_term : NpVal :=
      (NpVal.scalar (lg theta) - NpVal.map lg (mu + NpVal.scalar theta) +
        NpVal.scalar 1) * NpVal.scalar N
    let y_term : ℚ :=
      ((yv + NpVal.scalar theta) / (mu + NpVal.scalar theta)).sum
    NpVal.scalar digamma_sum - NpVal.scalar digamma_theta -
      NpVal.scalar y_term + mu_term
  else
    let digamma_sum := NpVal.map dg (yv + NpVal.scalar theta)
    let digamma_theta := NpVal.scalar (dg theta)
    let mu_term :=
      NpVal.scalar (lg theta) - NpVal.map lg (mu + NpVal.scalar theta) +
        NpVal.scalar 1
    let y_term := (yv + NpVal.scalar theta) / (mu + NpVal.scalar theta)
    NpVal.scalar ((digamma_sum - digamma_theta - y_term + mu_term).sum)

/-- Second derivative (Hessian) of the NB log-likelihood with respect to
theta, mirroring `theta_nb_hessian` in `fit.py`.  `tg` is the trigamma
primitive (`polygamma(1, ·)`). -/
def theta_nb_hessian (tg : ℚ → ℚ) (y : List ℕ) (mu : NpVal) (theta : ℚ)
    (fast : Bool) : NpVal :=
  let N : ℚ := (y.length : ℚ)
  let yv : NpVal := NpVal.vec (y.map fun a : ℕ => (a : ℚ))
  if fast then
    let y_lookup := lookup_table y
    let trigamma_sum : ℚ :=
      (y_lookup.map fun p => tg ((p.1 : ℚ) + theta) * (p.2 : ℚ)).sum
    let trigamma_theta : ℚ := tg theta * N
    let mu_term : NpVal :=
      (NpVal.scalar (1 / theta) -
        NpVal.scalar 2 / (mu + NpVal.scalar theta)) * NpVal.scalar N
    let y_term : ℚ :=
      ((yv + NpVal.scalar theta) /
        NpVal.map (fun x => x ^ 2) (mu + NpVal.scalar theta)).sum
    NpVal.scalar trigamma_sum - NpVal.scalar trigamma_theta +
      NpVal.scalar y_term + mu_term
  else
    let trigamma_sum := NpVal.map tg (yv + NpVal.scalar theta)
    let trigamma_theta := NpVal.scalar (tg theta)
    let mu_term :=
      NpVal.scalar (1 / theta) - NpVal.scalar 2 / (mu + NpVal.scalar theta)
    let y_term :=
      (yv + NpVal.scalar theta) /
        NpVal.map (fun x => x ^ 2) (mu + NpVal.scalar theta)
    NpVal.scalar ((trigamma_sum - trigamma_theta + y_term + mu_term).sum)

/-- Result of the external Poisson GLM solver (`statsmodels`): fitted
coefficients `fit.params` and fitted means `fit.predict()`.  The solver
itself is out of scope and enters as an abstract parameter. -/
structure GLMFitResult where
  params : List ℚ
  predict : List ℚ

/-- The record returned by `estimate_mu_glm`. -/
structure MuEstimate where
  coef : List ℚ
  mu : ℚ

/-- `estimate_mu_glm`: coerce `y` to integers, run the external Poisson
GLM solver, and return its coefficients together with only the first
fitted mean (`mu[0]`; reading the first element of an empty prediction
vector is modelled by `getD 0 0`). -/
def estimate_mu_glm (glm_fit : List ℤ → List (List ℚ) → GLMFitResult)
    (y : List ℚ) (model_matrix : List (List ℚ)) : MuEstimate :=
  let y2 := _process_y y
  let fit := glm_fit y2 model_matrix
  { coef := fit.params, mu := fit.predict.getD 0 0 }

/-- The Newton-Raphson iteration of `theta_ml`, by remaining iteration
count (fuel).  Fuel `0` is the fall-through after the `for` loop:
return `np.inf` (`none`) if the final theta is negative, else the final
theta.  Each iteration takes the absolute value of theta, bails out with
`np.inf` if the score is negative, performs the Newton update, and
returns the updated theta if the step was within tolerance. -/
def theta_ml_loop (dg tg lg : ℚ → ℚ) (y : List ℕ) (mu : ℚ) (tol : ℚ) :
    ℕ → ℚ → Option ℚ
  | 0, theta => if theta < 0 then none else some theta
  | k + 1, theta =>
    let theta1 := |theta|
    let score_diff :=
      (theta_nb_score dg lg y (NpVal.scalar mu) theta1 true).asScalar
    if score_diff < 0 then none
    else
      let delta_theta := score_diff /
        (theta_nb_hessian tg y (NpVal.scalar mu) theta1 true).asScalar
      let theta2 := theta1 - delta_theta
      if |delta_theta| ≤ tol then some theta2
      else theta_ml_loop dg tg lg y mu tol k theta2

/-- `theta_ml`: process `y` (integer coercion and squeeze; counts are
non-negative since `np.bincount` rejects negative input, so the processed
counts live in `ℕ`), leave `mu` as the scalar the pipeline supplies,
start from the method-of-moments estimate `N / sum((y / mu - 1) ** 2)`,
and run the Newton-Raphson loop for at most `max_iters` iterations. -/
def theta_ml (dg tg lg : ℚ → ℚ) (y0 : List ℚ) (mu : ℚ) (max_iters : ℕ)
    (tol : ℚ) : Option ℚ :=
  let y : List ℕ := (_process_y y0).map Int.toNat
  let N : ℚ := (y.length : ℚ)
  let theta0 : ℚ := N / ((y.map fun a : ℕ => ((a : ℚ) / mu - 1) ^ 2).sum)
  theta_ml_loop dg tg lg y mu tol max_iters theta0

/-- Modelled from the spec: the per-observation score formula
`score = Σ_i [ digamma(y_i + theta) − digamma(theta)
− (y_i+theta)/(mu_i+theta) + log(theta) − log(mu_i+theta) + 1 ]`,
written independently of the implementation for the refinement claims. -/
def nb_score_formula (dg lg : ℚ → ℚ) (y : List ℕ) (mu : List ℚ)
    (theta : ℚ) : ℚ :=
  (List.zipWith
    (fun (a : ℕ) (m : ℚ) => dg ((a : ℚ) + theta) - dg theta -
      ((a : ℚ) + theta) / (m + theta) + lg theta - lg (m + theta) + 1)
    y mu).sum

/-! Simp normal forms for the broadcast operators. -/

@[simp] theorem scalar_add_scalar (a b : ℚ) :
    NpVal.scalar a + NpVal.scalar b = NpVal.scalar (a + b) := rfl

@[simp] theorem scalar_add_vec (a : ℚ) (bs : List ℚ) :
    NpVal.scalar a + NpVal.vec bs = NpVal.vec (bs.map fun b => a + b) := rfl

@[simp] theorem vec_add_scalar (as : List ℚ) (b : ℚ) :
    NpVal.vec as + NpVal.scalar b = NpVal.vec (as.map fun a => a + b) := rfl

@[simp] theorem vec_add_vec (as bs : List ℚ) :
    NpVal.vec as + NpVal.vec bs = NpVal.vec (List.zipWith (· + ·) as bs) := rfl

@[simp] theorem scalar_sub_scalar (a b : ℚ) :
    NpVal.scalar a - NpVal.scalar b = NpVal.scalar (a - b) := rfl

@[simp] theorem scalar_sub_vec (a : ℚ) (bs : List ℚ) :
    NpVal.scalar a - NpVal.vec bs = NpVal.vec (bs.map fun b => a - b) := rfl

@[simp] theorem vec_sub_scalar (as : List ℚ) (b : ℚ) :
    NpVal.vec as - NpVal.scalar b = NpVal.vec (as.map fun a => a - b) := rfl

@[simp] theorem vec_sub_vec (as bs : List ℚ) :
    NpVal.vec as - NpVal.vec bs = NpVal.vec (List.zipWith (· - ·) as bs) := rfl

@[simp] theorem scalar_mul_scalar (a b : ℚ) :
    NpVal.scalar a * NpVal.scalar b = NpVal.scalar (a * b) := rfl

@[simp] theorem scalar_mul_vec (a : ℚ) (bs : List ℚ) :
    NpVal.scalar a * NpVal.vec bs = NpVal.vec (bs.map fun b => a * b) := rfl

@[simp] theorem vec_mul_scalar (as : List ℚ) (b : ℚ) :
    NpVal.vec as * NpVal.scalar b = NpVal.vec (as.map fun a => a * b) := rfl

@[simp] theorem vec_mul_vec (as bs : List ℚ) :
    NpVal.vec as * NpVal.vec bs = NpVal.vec (List.zipWith (· * ·) as bs) := rfl

@[simp] theorem scalar_div_scalar (a b : ℚ) :
    NpVal.scalar a / NpVal.scalar b = NpVal.scalar (a / b) := rfl

@[simp] theorem scalar_div_vec (a : ℚ) (bs : List ℚ) :
    NpVal.scalar a / NpVal.vec bs = NpVal.vec (bs.map fun b => a / b) := rfl

@[simp] theorem vec_div_scalar (as : List ℚ) (b : ℚ) :
    NpVal.vec as / NpVal.scalar b = NpVal.vec (as.map fun a => a / b) := rfl

@[simp] theorem vec_div_vec (as bs : List ℚ) :
    NpVal.vec as / NpVal.vec bs = NpVal.vec (List.zipWith (· / ·) as bs) := rfl

@[simp] theorem map_scalar (f : ℚ → ℚ) (a : ℚ) :
    NpVal.map f (NpVal.scalar a) = NpVal.scalar (f a) := rfl

@[simp] theorem map_vec (f : ℚ → ℚ) (as : List ℚ) :
    NpVal.map f (NpVal.vec as) = NpVal.vec (as.map f) := rfl

@[simp] theorem sum_scalar (a : ℚ) : (NpVal.scalar a).sum = a := rfl

@[simp] theorem sum_vec (as : List ℚ) : (NpVal.vec as).sum = as.sum := rfl

@[simp] theorem asScalar_scalar (a : ℚ) : (NpVal.scalar a).asScalar = a := rfl

/-! Generic list-sum helpers. -/

theorem sum_map_add {M α : Type*} [AddCommMonoid M] (l : List α) (f g : α → M) :
    (l.map fun x => f x + g x).sum = (l.map f).sum + (l.map g).sum := by
  induction l with
  | nil => simp
  | cons a t ih => simp only [List.map_cons, List.sum_cons, ih]; abel

theorem sum_map_ite {M : Type*} [AddCommMonoid M] (f : ℕ → M) (a : ℕ) :
    ∀ l : List ℕ, l.Nodup → a ∈ l →
      (l.map fun v => if a = v then f v else 0).sum = f a := by
  intro l
  induction l with
  | nil => intro _ h; cases h
  | cons b t ih =>
    intro hnd hmem
    have hnd' := List.nodup_cons.mp hnd
    rcases List.mem_cons.mp hmem with h | h
    · subst h
      have hz : (t.map fun v => if a = v then f v else 0).sum = 0 := by
        apply List.sum_eq_zero
        intro x hx
        rcases List.mem_map.mp hx with ⟨v, hv, rfl⟩
        have : a ≠ v := fun h => hnd'.1 (h ▸ hv)
        simp [this]
      simp [hz]
    · have hab : a ≠ b := fun hh => hnd'.1 (hh ▸ h)
      simp [hab, ih hnd'.2 h]

theorem filter_map_sum {M α : Type*} [AddCommMonoid M] (p : α → Bool) (g : α → M) :
    ∀ l : List α, (∀ i ∈ l, p i = false → g i = 0) →
      ((l.filter p).map g).sum = (l.map g).sum := by
  intro l
  induction l with
  | nil => intro _; simp
  | cons a t ih =>
    intro h
    have ht : ∀ i ∈ t, p i = false → g i = 0 := fun i hi => h i (List.mem_cons_of_mem a hi)
    rcases hb : p a with _ | _
    · simp [List.filter_cons, hb, ih ht, h a (List.mem_cons_self a t) hb]
    · simp [List.filter_cons, hb, ih ht]

/-! Lookup-table lemmas. -/

theorem mem_le_foldr_max (y : List ℕ) (a : ℕ) : a ∈ y → a ≤ y.foldr Nat.max 0 := by
  induction y with
  | nil => intro h; cases h
  | cons b t ih =>
    intro h
    rcases List.mem_cons.mp h with h | h
    · subst h; exact Nat.le_max_left _ _
    · exact le_trans (ih h) (Nat.le_max_right _ _)

theorem bincount_getD (y : List ℕ) (i : ℕ) : (bincount y).getD i 0 = y.count i := by
  match y with
  | [] => simp [bincount]
  | a :: t =>
    by_cases hi : i < (a :: t).foldr Nat.max 0 + 1
    · have hi' : i < Nat.max a (List.foldr Nat.max 0 t) + 1 := hi
      simp [bincount, List.getD_eq_getElem?_getD, List.getElem?_range hi']
    · have hlen : (bincount (a :: t)).length ≤ i := by
        simp only [bincount, List.length_map, List.length_range]
        omega
      rw [List.getD_eq_default _ _ hlen]
      symm
      rw [List.count_eq_zero]
      intro hmem
      exact hi (Nat.lt_succ_of_le (mem_le_foldr_max _ _ hmem))

theorem mem_lt_bincount_length {y : List ℕ} {a : ℕ} (h : a ∈ y) :
    a < (bincount y).length := by
  match y with
  | [] => cases h
  | b :: t =>
    simp only [bincount, List.length_map, List.length_range]
    exact Nat.lt_succ_of_le (mem_le_foldr_max _ _ h)

theorem bincount_getElem? (y : List ℕ) (i : ℕ) :
    ((bincount y)[i]?).getD 0 = y.count i := by
  rw [← List.getD_eq_getElem?_getD]
  exact bincount_getD y i

theorem lookup_table_eq_filter (y : List ℕ) :
    lookup_table y =
      (((List.range (bincount y).length).filter fun i => y.count i != 0).map
        fun i => (i, y.count i)) := by
  simp [lookup_table, bincount_getElem?]

theorem count_range_sum (y : List ℕ) (n : ℕ) (h : ∀ a ∈ y, a < n) :
    ((List.range n).map fun v => y.count v).sum = y.length := by
  induction y with
  | nil => simp
  | cons a t ih =>
    have ha : a ∈ List.range n := List.mem_range.mpr (h a (List.mem_cons_self a t))
    have ht : ∀ b ∈ t, b < n := fun b hb => h b (List.mem_cons_of_mem a hb)
    have hc : ((List.range n).map fun v => (a :: t).count v).sum =
        ((List.range n).map fun v => t.count v + if a = v then 1 else 0).sum := by
      apply congrArg
      apply List.map_congr_left
      intro v _
      simp [List.count_cons]
    rw [hc, sum_map_add, ih ht, sum_map_ite (fun _ => 1) a _ (List.nodup_range n) ha]
    simp [Nat.add_comm]

theorem count_range_sum_smul (f : ℕ → ℚ) (y : List ℕ) (n : ℕ) (h : ∀ a ∈ y, a < n) :
    ((List.range n).map fun v => f v * (y.count v : ℚ)).sum = (y.map f).sum := by
  induction y with
  | nil => simp
  | cons a t ih =>
    have ha : a ∈ List.range n := List.mem_range.mpr (h a (List.mem_cons_self a t))
    have ht : ∀ b ∈ t, b < n := fun b hb => h b (List.mem_cons_of_mem a hb)
    have hc : ((List.range n).map fun v => f v * ((a :: t).count v : ℚ)).sum =
        ((List.range n).map fun v =>
          f v * (t.count v : ℚ) + if a = v then f v else 0).sum := by
      apply congrArg
      apply List.map_congr_left
      intro v _
      by_cases hv : a = v
      · subst hv; simp [List.count_cons]; ring
      · have : ¬ (v = a) := fun hh => hv hh.symm
        simp [List.count_cons, this, hv]
    rw [hc, sum_map_add, ih ht, sum_map_ite f a _ (List.nodup_range n) ha]
    simp [add_comm]

theorem lookup_sum (f : ℕ → ℚ) (y : List ℕ) :
    ((lookup_table y).map fun p => f p.1 * (p.2 : ℚ)).sum = (y.map f).sum := by
  rw [lookup_table_eq_filter, List.map_map]
  have hcomp : ((fun p : ℕ × ℕ => f p.1 * (p.2 : ℚ)) ∘ fun i => (i, y.count i)) =
      fun i => f i * (y.count i : ℚ) := rfl
  rw [hcomp]
  rw [filter_map_sum _ _ _ ?_]
  · exact count_range_sum_smul f y _ (fun a ha => mem_lt_bincount_length ha)
  · intro i _ hpi
    simp only [bne_eq_false_iff_eq] at hpi
    simp [hpi]

theorem lookup_mult_sum (y : List ℕ) :
    ((lookup_table y).map fun p => p.2).sum = y.length := by
  rw [lookup_table_eq_filter, List.map_map]
  have hcomp : ((fun p : ℕ × ℕ => p.2) ∘ fun i => (i, y.count i)) =
      fun i => y.count i := rfl
  rw [hcomp]
  rw [filter_map_sum _ _ _ ?_]
  · exact count_range_sum y _ (fun a ha => mem_lt_bincount_length ha)
  · intro i _ hpi
    simp only [bne_eq_false_iff_eq] at hpi
    simp [hpi]

theorem lookup_sum_apply (f : ℚ → ℚ) (theta : ℚ) (y : List ℕ) :
    ((lookup_table y).map fun p => f ((p.1 : ℚ) + theta) * (p.2 : ℚ)).sum =
      (y.map fun a : ℕ => f ((a : ℚ) + theta)).sum :=
  lookup_sum (fun v : ℕ => f ((v : ℚ) + theta)) y

/-! Closed forms of the score and Hessian for a scalar mean, in both modes. -/

theorem score_fast_scalar (dg lg : ℚ → ℚ) (y : List ℕ) (m theta : ℚ) :
    theta_nb_score dg lg y (NpVal.scalar m) theta true =
      NpVal.scalar
        (((lookup_table y).map fun p => dg ((p.1 : ℚ) + theta) * (p.2 : ℚ)).sum -
          dg theta * (y.length : ℚ) -
          (y.map fun a : ℕ => ((a : ℚ) + theta) / (m + theta)).sum +
          (lg theta - lg (m + theta) + 1) * (y.length : ℚ)) := by
  simp only [theta_nb_score, if_true, vec_add_scalar, map_vec, scalar_sub_scalar,
    scalar_add_scalar, vec_sub_scalar, vec_div_scalar, sum_vec, List.map_map,
    map_scalar, scalar_mul_scalar]
  simp only [Function.comp_def]

theorem score_exact_scalar (dg lg : ℚ → ℚ) (y : List ℕ) (m theta : ℚ) :
    theta_nb_score dg lg y (NpVal.scalar m) theta false =
      NpVal.scalar ((y.map fun a : ℕ =>
        dg ((a : ℚ) + theta) - dg theta - ((a : ℚ) + theta) / (m + theta) +
          (lg theta - lg (m + theta) + 1)).sum) := by
  simp only [theta_nb_score, Bool.false_eq_true, if_false, vec_add_scalar, map_vec,
    scalar_sub_scalar, scalar_add_scalar, vec_sub_scalar, vec_sub_vec, vec_add_vec,
    vec_div_scalar, sum_vec, List.map_map, map_scalar, List.zipWith_map,
    List.zipWith_same, sum_scalar]
  simp only [Function.comp_def]

theorem hessian_fast_scalar (tg : ℚ → ℚ) (y : List ℕ) (m theta : ℚ) :
    theta_nb_hessian tg y (NpVal.scalar m) theta true =
      NpVal.scalar
        (((lookup_table y).map fun p => tg ((p.1 : ℚ) + theta) * (p.2 : ℚ)).sum -
          tg theta * (y.length : ℚ) +
          (y.map fun a : ℕ => ((a : ℚ) + theta) / (m + theta) ^ 2).sum +
          (1 / theta - 2 / (m + theta)) * (y.length : ℚ)) := by
  simp only [theta_nb_hessian, if_true, vec_add_scalar, map_vec, scalar_sub_scalar,
    scalar_add_scalar, scalar_div_scalar, vec_div_scalar, sum_vec, List.map_map,
    map_scalar, scalar_mul_scalar]
  simp only [Function.comp_def]

theorem hessian_exact_scalar (tg : ℚ → ℚ) (y : List ℕ) (m theta : ℚ) :
    theta_nb_hessian tg y (NpVal.scalar m) theta false =
      NpVal.scalar ((y.map fun a : ℕ =>
        tg ((a : ℚ) + theta) - tg theta + ((a : ℚ) + theta) / (m + theta) ^ 2 +
          (1 / theta - 2 / (m + theta))).sum) := by
  simp only [theta_nb_hessian, Bool.false_eq_true, if_false, vec_add_scalar, map_vec,
    scalar_sub_scalar, scalar_add_scalar, scalar_div_scalar, vec_sub_scalar,
    vec_sub_vec, vec_add_vec, vec_div_scalar, sum_vec, List.map_map, map_scalar,
    List.zipWith_map, List.zipWith_same, sum_scalar]
  simp only [Function.comp_def]

/-! Splitting a summed per-observation formula into its aggregated parts. -/

theorem sum_map_split (y : List ℕ) (g1 g2 : ℕ → ℚ) (d c : ℚ) :
    (y.map fun a => g1 a - d - g2 a + c).sum =
      (y.map g1).sum - d * (y.length : ℚ) - (y.map g2).sum +
        c * (y.length : ℚ) := by
  induction y with
  | nil => simp
  | cons a t ih =>
    simp only [List.map_cons, List.sum_cons, List.length_cons, ih]
    push_cast
    ring

theorem sum_map_split_h (y : List ℕ) (g1 g2 : ℕ → ℚ) (d c : ℚ) :
    (y.map fun a => g1 a - d + g2 a + c).sum =
      (y.map g1).sum - d * (y.length : ℚ) + (y.map g2).sum +
        c * (y.length : ℚ) := by
  induction y with
  | nil => simp
  | cons a t ih =>
    simp only [List.map_cons, List.sum_cons, List.length_cons, ih]
    push_cast
    ring

/-! ZipWith fusion lemmas used to normalise the vector-mean case. -/

theorem zipWith_zipWith_right {α β γ δ : Type*} (f : α → γ → δ) (g : α → β → γ) :
    ∀ (l : List α) (l2 : List β), List.zipWith f l (List.zipWith g l l2) =
      List.zipWith (fun a b => f a (g a b)) l l2
  | [], _ => by simp
  | _ :: _, [] => by simp
  | a :: t, b :: t2 => by
    simp only [List.zipWith_cons_cons]
    rw [zipWith_zipWith_right f g t t2]

theorem zipWith_zipWith_left {α β γ δ : Type*} (f : γ → β → δ) (g : α → β → γ) :
    ∀ (l : List α) (l2 : List β), List.zipWith f (List.zipWith g l l2) l2 =
      List.zipWith (fun a b => f (g a b) b) l l2
  | [], _ => by simp
  | _ :: _, [] => by simp
  | a :: t, b :: t2 => by
    simp only [List.zipWith_cons_cons]
    rw [zipWith_zipWith_left f g t t2]

theorem zipWith_congr_fun {α β γ : Type*} (f g : α → β → γ)
    (h : ∀ a b, f a b = g a b) (l : List α) (l2 : List β) :
    List.zipWith f l l2 = List.zipWith g l l2 := by
  have hfg : f = g := funext fun a => funext fun b => h a b
  rw [hfg]

/-- Closed form of the exact (elementwise) score for a genuine mean
vector: the scalar sum of the per-observation formula over aligned
pairs. -/
theorem score_exact_vec (dg lg : ℚ → ℚ) (y : List ℕ) (mu : List ℚ)
    (theta : ℚ) :
    theta_nb_score dg lg y (NpVal.vec mu) theta false =
      NpVal.scalar ((List.zipWith (fun (a : ℕ) (m : ℚ) =>
        dg ((a : ℚ) + theta) - dg theta - ((a : ℚ) + theta) / (m + theta) +
          (lg theta - lg (m + theta) + 1)) y mu).sum) := by
  simp only [theta_nb_score, Bool.false_eq_true, if_false, vec_add_scalar,
    scalar_sub_vec, scalar_add_vec, vec_add_vec, vec_sub_scalar, vec_sub_vec,
    vec_div_vec, map_vec, sum_vec, List.map_map, List.zipWith_map,
    List.zipWith_map_left, List.zipWith_map_right, zipWith_zipWith_right,
    zipWith_zipWith_left, Function.comp_def]

/-! Key-list lemmas for the lookup table. -/

theorem lookup_keys (y : List ℕ) :
    (lookup_table y).map (fun p => p.1) =
      (List.range (bincount y).length).filter fun i => y.count i != 0 := by
  rw [lookup_table_eq_filter, List.map_map]
  exact List.map_id' _

theorem lookup_keys_count (y : List ℕ) (v : ℕ) :
    ((lookup_table y).map fun p => p.1).count v = if v ∈ y then 1 else 0 := by
  rw [lookup_keys]
  by_cases hv : v ∈ y
  · rw [if_pos hv]
    apply List.count_eq_one_of_mem ((List.nodup_range _).filter _)
    rw [List.mem_filter]
    refine ⟨List.mem_range.mpr (mem_lt_bincount_length hv), ?_⟩
    simp only [bne_iff_ne, ne_eq, List.count_eq_zero]
    simpa using hv
  · rw [if_neg hv]
    apply List.count_eq_zero_of_not_mem
    intro hmem
    rw [List.mem_filter] at hmem
    have h2 := hmem.2
    simp only [bne_iff_ne, ne_eq, List.count_eq_zero, not_not] at h2
    exact hv h2

/-- Any finite value produced by the Newton loop is at least `-tol`:
the fall-through returns a non-negative theta, and the convergence
return is `|theta| - delta` with `delta ≤ |delta| ≤ tol`. -/
theorem theta_ml_loop_ge (dg tg lg : ℚ → ℚ) (y : List ℕ) (mu tol : ℚ)
    (htol : 0 ≤ tol) :
    ∀ (k : ℕ) (theta q : ℚ),
      theta_ml_loop dg tg lg y mu tol k theta = some q → -tol ≤ q := by
  intro k
  induction k with
  | zero =>
    intro theta q h
    simp only [theta_ml_loop] at h
    split at h
    · cases h
    · next hneg =>
      injection h with h'
      subst h'
      have := not_lt.mp hneg
      linarith
  | succ k ih =>
    intro theta q h
    simp only [theta_ml_loop] at h
    split at h
    · cases h
    · split at h
      · next hdelta =>
        injection h with h'
        subst h'
        have h1 : (0 : ℚ) ≤ |theta| := abs_nonneg theta
        have h2 := le_trans (le_abs_self _) hdelta
        linarith
      · exact ih _ _ h

/-- Rounding toward zero characterised: `pyInt` is the floor on
non-negative rationals and the negated floor of the negation otherwise. -/
theorem pyInt_trunc (q : ℚ) : pyInt q = if 0 ≤ q then ⌊q⌋ else -⌊-q⌋ := by
  by_cases h : 0 ≤ q
  · rw [if_pos h, Rat.floor_def, pyInt]
    exact Int.tdiv_eq_ediv (Rat.num_nonneg.mpr h) (Int.ofNat_nonneg _)
  · rw [if_neg h, pyInt, Rat.floor_def]
    have hnum : q.num < 0 := by
      by_contra hn
      exact h (Rat.num_nonneg.mp (not_lt.mp hn))
    have h1 : (-q).num = -q.num := by simp
    have h2 : ((-q).den : ℤ) = (q.den : ℤ) := by simp
    rw [h1, h2]
    have h3 : (-q.num).tdiv (q.den : ℤ) = (-q.num) / (q.den : ℤ) :=
      Int.tdiv_eq_ediv (by omega) (Int.ofNat_nonneg _)
    rw [← h3, Int.neg_tdiv, neg_neg]

theorem pyInt_intCast (z : ℤ) : pyInt (z : ℚ) = z := by
  simp [pyInt]

theorem process_y_idem (y : List ℚ) :
    _process_y ((_process_y y).map fun z : ℤ => (z : ℚ)) = _process_y y := by
  simp [_process_y, List.map_map, Function.comp_def, pyInt_intCast]

/-! The claim theorems. -/

/-- C1 (counterexample): with a genuine mean vector of length two, the
fast (lookup-table) mode of `theta_nb_score` returns a broadcast
two-element array while the exact mode returns the scalar sum, so the
two modes do not return the same value. -/
theorem fast_exact_equiv_cex :
    theta_nb_score (fun _ => 0) (fun x => x) [0, 1] (NpVal.vec [1, 2]) 1 true ≠
      theta_nb_score (fun _ => 0) (fun x => x) [0, 1] (NpVal.vec [1, 2]) 1 false := by
  decide

/-- C1 (amended): when the mean is the scalar that the pipeline actually
supplies, the fast (lookup-table) mode of `theta_nb_score` and of
`theta_nb_hessian` agrees exactly with the exact elementwise mode, for
every digamma, trigamma and logarithm provider, every count vector,
every mean and every theta. -/
theorem fast_exact_equiv_scalar_mu (dg tg lg : ℚ → ℚ) (y : List ℕ)
    (m theta : ℚ) :
    theta_nb_score dg lg y (NpVal.scalar m) theta true =
      theta_nb_score dg lg y (NpVal.scalar m) theta false ∧
    theta_nb_hessian tg y (NpVal.scalar m) theta true =
      theta_nb_hessian tg y (NpVal.scalar m) theta false := by
  constructor
  · rw [score_fast_scalar, score_exact_scalar, lookup_sum_apply dg theta y,
      sum_map_split y (fun a : ℕ => dg ((a : ℚ) + theta))
        (fun a : ℕ => ((a : ℚ) + theta) / (m + theta)) (dg theta)
        (lg theta - lg (m + theta) + 1)]
  · rw [hessian_fast_scalar, hessian_exact_scalar, lookup_sum_apply tg theta y,
      sum_map_split_h y (fun a : ℕ => tg ((a : ℚ) + theta))
        (fun a : ℕ => ((a : ℚ) + theta) / (m + theta) ^ 2) (tg theta)
        (1 / theta - 2 / (m + theta))]

/-- C2: in any iteration of the Newton loop, if the score evaluated at
the current (absolute-valued) theta is negative, the loop returns the
infinity sentinel immediately, for every trigamma provider: the Hessian
is never consulted and no further iteration happens. -/
theorem score_negative_bailout (dg lg : ℚ → ℚ) (y : List ℕ)
    (mu tol theta : ℚ) (k : ℕ)
    (h : (theta_nb_score dg lg y (NpVal.scalar mu) |theta| true).asScalar < 0) :
    ∀ tg : ℚ → ℚ, theta_ml_loop dg tg lg y mu tol (k + 1) theta = none := by
  intro tg
  simp only [theta_ml_loop]
  rw [if_pos h]

/-- C2 witness: a concrete run in which the first score is negative and
the loop returns the infinity sentinel. -/
theorem score_negative_bailout_witness :
    theta_ml_loop (fun _ => 0) (fun _ => 0) (fun x => x) [0] 1 (1 / 100) 1 1 =
      none :=
  score_negative_bailout (fun _ => 0) (fun x => x) [0] 1 (1 / 100) 1 0
    (by decide) (fun _ => 0)

/-- C3 (counterexample): with the default iteration budget and tolerance
and a two-observation count vector, `theta_ml` can return a strictly
negative finite value: the moment estimate is `2 / (2 * 200 ^ 2)
= 1 / 40000`, the first Newton step has `delta = 1 / 20000` within
tolerance, and the convergence return `theta - delta = -1 / 40000` is
not sign-checked.  The special-function providers are instantiated
concretely. -/
theorem theta_ml_positive_cex :
    theta_ml (fun x => (1608080000 / 1600080001) * x) (fun _ => 0)
        (fun _ => 0) [201, 201] 1 20 (1 / 10000) = some (-(1 / 40000)) ∧
      ¬ (0 < (-(1 / 40000) : ℚ)) := by
  constructor
  · decide
  · decide

/-- C3 (amended): for a non-negative tolerance, every finite value
returned by `theta_ml` is at least `-tol`; the bailout and exhaustion
paths yield the infinity sentinel or a non-negative theta, and the
convergence path can undershoot zero by at most the tolerance. -/
theorem theta_ml_finite_ge_neg_tol (dg tg lg : ℚ → ℚ) (y0 : List ℚ)
    (mu : ℚ) (max_iters : ℕ) (tol : ℚ) (htol : 0 ≤ tol) (q : ℚ)
    (h : theta_ml dg tg lg y0 mu max_iters tol = some q) : -tol ≤ q := by
  simp only [theta_ml] at h
  exact theta_ml_loop_ge dg tg lg _ mu tol htol max_iters _ q h

/-- C3 witness: a concrete converging run on a two-observation count
vector returning a finite value, which the amended bound covers. -/
theorem theta_ml_finite_ge_neg_tol_witness :
    (0 : ℚ) ≤ 3 ∧
      theta_ml (fun x => x) (fun _ => 0) (fun _ => 0) [2, 2] 1 20 3 =
        some (-1) ∧
      (-(3 : ℚ)) ≤ -1 :=
  ⟨by norm_num, by decide,
    theta_ml_finite_ge_neg_tol (fun x => x) (fun _ => 0) (fun _ => 0) [2, 2] 1
      20 3 (by norm_num) (-1) (by decide)⟩

/-- C4: the exact (elementwise) mode of `theta_nb_score` returns the
scalar sum over observations of the per-observation formula
`digamma(y_i + theta) - digamma(theta) - (y_i + theta) / (mu_i + theta)
+ log(theta) - log(mu_i + theta) + 1`, as stated by the spec and written
independently in `nb_score_formula`. -/
theorem exact_score_formula (dg lg : ℚ → ℚ) (y : List ℕ) (mu : List ℚ)
    (theta : ℚ) :
    theta_nb_score dg lg y (NpVal.vec mu) theta false =
      NpVal.scalar (nb_score_formula dg lg y mu theta) := by
  rw [score_exact_vec]
  unfold nb_score_formula
  congr 1
  exact congrArg List.sum
    (zipWith_congr_fun _ _ (fun a m => by ring) y mu)

/-- C5: `theta_ml` starts the Newton iteration from the method-of-moments
estimate `N / sum((y_i / mu - 1) ^ 2)` over the processed counts, and
every iteration of the loop first replaces theta by its absolute value,
so the loop is invariant under replacing the incoming theta by `|theta|`. -/
theorem theta_ml_init_and_abs :
    (∀ (dg tg lg : ℚ → ℚ) (y0 : List ℚ) (mu : ℚ) (max_iters : ℕ) (tol : ℚ),
      theta_ml dg tg lg y0 mu max_iters tol =
        theta_ml_loop dg tg lg ((_process_y y0).map Int.toNat) mu tol max_iters
          ((((_process_y y0).map Int.toNat).length : ℚ) /
            ((((_process_y y0).map Int.toNat).map
              fun a : ℕ => ((a : ℚ) / mu - 1) ^ 2).sum))) ∧
    (∀ (dg tg lg : ℚ → ℚ) (y : List ℕ) (mu tol theta : ℚ) (k : ℕ),
      theta_ml_loop dg tg lg y mu tol (k + 1) theta =
        theta_ml_loop dg tg lg y mu tol (k + 1) |theta|) := by
  constructor
  · intro dg tg lg y0 mu max_iters tol
    rfl
  · intro dg tg lg y mu tol theta k
    simp only [theta_ml_loop, abs_abs]

/-- C6: when the loop has exhausted its iteration budget without
converging and without a negative score, the fall-through returns the
infinity sentinel if the final theta is negative and the final
(unconverged) theta unchanged otherwise. -/
theorem theta_ml_exhaustion (dg tg lg : ℚ → ℚ) (y : List ℕ)
    (mu tol theta : ℚ) :
    theta_ml_loop dg tg lg y mu tol 0 theta =
      if theta < 0 then none else some theta := rfl

/-- C7: the lookup table's multiplicities sum to the length of `y`; every
value of `y` occurs exactly once as a key and non-values never occur; each
entry pairs a value with its positive multiplicity; the keys are strictly
ascending; and the table is empty exactly when `y` is empty. -/
theorem lookup_table_correct (y : List ℕ) :
    (((lookup_table y).map fun p => p.2).sum = y.length) ∧
    (∀ v : ℕ, ((lookup_table y).map fun p => p.1).count v =
      if v ∈ y then 1 else 0) ∧
    (∀ p ∈ lookup_table y, p.2 = y.count p.1 ∧ 0 < p.2) ∧
    (((lookup_table y).map fun p => p.1).Pairwise (· < ·)) ∧
    (lookup_table y = [] ↔ y = []) := by
  refine ⟨lookup_mult_sum y, lookup_keys_count y, ?_, ?_, ?_, ?_⟩
  · intro p hp
    rw [lookup_table_eq_filter] at hp
    rcases List.mem_map.mp hp with ⟨i, hi, rfl⟩
    rcases List.mem_filter.mp hi with ⟨_, hpos⟩
    simp only [bne_iff_ne, ne_eq] at hpos
    exact ⟨rfl, Nat.pos_of_ne_zero hpos⟩
  · have h := lookup_keys y
    rw [h]
    exact (List.pairwise_lt_range _).filter _
  · intro h
    cases y with
    | nil => rfl
    | cons a t =>
      exfalso
      have h1 := lookup_keys_count (a :: t) a
      rw [h] at h1
      simp [List.mem_cons_self] at h1
  · intro h
    subst h
    rfl

/-- C7 witness: the table of `[2, 0, 2]`, with the membership hypothesis
of the per-entry clause discharged at the entry `(2, 2)`. -/
theorem lookup_table_correct_witness :
    (((lookup_table [2, 0, 2]).map fun p => p.2).sum = [2, 0, 2].length) ∧
    ((2, 2).2 = [2, 0, 2].count (2, 2).1 ∧ 0 < (2, 2).2) :=
  ⟨(lookup_table_correct [2, 0, 2]).1,
    (lookup_table_correct [2, 0, 2]).2.2.1 (2, 2) (by decide)⟩

/-- C8: with an empty count vector, the fast (lookup-table) mode of the
score and of the Hessian produces a result summing to zero, whatever the
mean (scalar or array) and the providers. -/
theorem empty_y_fast_zero (dg tg lg : ℚ → ℚ) (mu : NpVal) (theta : ℚ) :
    (theta_nb_score dg lg [] mu theta true).sum = 0 ∧
    (theta_nb_hessian tg [] mu theta true).sum = 0 := by
  cases mu with
  | scalar m =>
    constructor <;>
      simp [theta_nb_score, theta_nb_hessian, lookup_table, bincount]
  | vec ms =>
    constructor <;>
    · simp [theta_nb_score, theta_nb_hessian, lookup_table, bincount]
      apply List.sum_eq_zero
      intro x hx
      rcases List.mem_map.mp hx with ⟨m, hm, rfl⟩
      rfl

/-- C9: `estimate_mu_glm` passes the integer-coerced counts to the
external GLM solver, surfaces the solver's coefficient vector in `coef`,
and surfaces only the first entry of the fitted-mean vector in `mu`; its
result is unchanged when `y` is replaced by its integer truncation. -/
theorem estimate_mu_glm_spec (glm_fit : List ℤ → List (List ℚ) → GLMFitResult)
    (y : List ℚ) (model_matrix : List (List ℚ)) :
    (estimate_mu_glm glm_fit y model_matrix).coef =
        (glm_fit (_process_y y) model_matrix).params ∧
    (estimate_mu_glm glm_fit y model_matrix).mu =
        ((glm_fit (_process_y y) model_matrix).predict).getD 0 0 ∧
    estimate_mu_glm glm_fit y model_matrix =
        estimate_mu_glm glm_fit ((_process_y y).map fun z : ℤ => (z : ℚ))
          model_matrix := by
  refine ⟨rfl, rfl, ?_⟩
  simp only [estimate_mu_glm, process_y_idem]

/-- C10: `theta_ml` coerces its count input through `_process_y` before
any computation, so the estimate is computed on the truncated counts
(replacing the input by its truncation leaves the result unchanged), and
the coercion truncates toward zero: it is the floor on non-negative
values and the negated floor of the negation on negative values.  The
mean is passed through unchanged. -/
theorem theta_ml_truncates_counts :
    (∀ (dg tg lg : ℚ → ℚ) (y0 : List ℚ) (mu : ℚ) (max_iters : ℕ) (tol : ℚ),
      theta_ml dg tg lg y0 mu max_iters tol =
        theta_ml dg tg lg ((_process_y y0).map fun z : ℤ => (z : ℚ)) mu
          max_iters tol) ∧
    (∀ q : ℚ, pyInt q = if 0 ≤ q then ⌊q⌋ else -⌊-q⌋) := by
  constructor
  · intro dg tg lg y0 mu max_iters tol
    simp only [theta_ml, process_y_idem]
  · exact pyInt_trunc

end PySCTransform
